import Mathlib

/-!
Verification of the codecrafters-redis-rust server.

This file is a shallow embedding, in Lean 4, of the parts of the
server that the specification talks about:

* the RESP2 codec (`src/types.rs` `RedisType::to_vec`, `src/io.rs`
  `get_string` / `read_bulk_length` / `read_bulk_string` /
  `read_command`),
* the Store actor (`src/store.rs` `Store::{write, read}`, `replicate`,
  `store_loop`),
* the client handlers for KEYS and INFO (`src/client.rs`
  `Client::{handle_keys, handle_info}` together with `src/info.rs`
  `info_on`), and
* the replica ingest loop (`src/replica.rs` `Replica::{handle_set,
  handle_replconf, dispatch}` and `replica_loop`, plus
  `src/common_cli_rep.rs` `handle_set`).

Modelling conventions:

* Rust byte buffers and Rust `String`s are both modelled as `List Nat`
  (one `Nat` per byte; all constants used in theorems are ASCII, where
  one byte is one character, so `String::len`, byte slicing and
  `read_line` UTF-8 validation coincide with the byte-level model).
* `tokio` channels are modelled by explicit effect lists: sending a
  value into a client or replica channel becomes an `Effect` element,
  emitted in program order.  A channel endpoint is identified by a
  `Nat` token.
* `SystemTime` is modelled as milliseconds since the UNIX epoch
  (a `Nat` parameter `now`); `u128`/`u64`/`usize` are modelled as
  `Nat` (the program never exercises overflow in the claims below).
* A Rust `panic!` (and an out-of-bounds index or arithmetic underflow)
  is modelled as `Option.none` / `DErr.fatal`; a recoverable
  `anyhow::Result::Err` (`bail!`) is a distinct error value.
-/

/-- Byte strings: one `Nat` per byte. -/
abbrev Bytes := List Nat

/-- ASCII bytes of a Lean string literal (all literals used are ASCII). -/
def ascii (s : String) : Bytes := s.data.map Char.toNat

/-- The two-byte CRLF terminator. -/
def crlf : Bytes := [13, 10]

/-- Rust `u8::to_ascii_lowercase` on one byte. -/
def lowerByte (b : Nat) : Nat := if 65 ≤ b ∧ b ≤ 90 then b + 32 else b

/-- Rust `str::to_ascii_lowercase` / `to_lowercase` on an ASCII byte string. -/
def lowerBytes (s : Bytes) : Bytes := s.map lowerByte

/-- Fuel-driven worker for `natDigits` (the fuel makes the recursion
structural, so that terms evaluate by `rfl`/`decide`; any fuel at
least `n` gives the digits of `n`). -/
def natDigitsCore : Nat → Nat → Bytes
  | 0, n => [48 + n % 10]
  | fuel + 1, n =>
    if n < 10 then [48 + n] else natDigitsCore fuel (n / 10) ++ [48 + n % 10]

/-- Decimal ASCII digits of a natural number, as produced by Rust
`format!("{n}")` for an unsigned integer. -/
def natDigits (n : Nat) : Bytes := natDigitsCore n n

/-- Decimal ASCII rendering of a signed integer, as produced by Rust
`format!("{n}")` for an `i64`. -/
def intDigits (i : Int) : Bytes :=
  if i < 0 then 45 :: natDigits i.natAbs else natDigits i.toNat

/-- `RedisType` from `src/types.rs`: the tagged value union.  `String`
holds the bytes of a Rust `String`; `Timestamp` holds a millisecond
count (`u128` in the source, modelled as `Nat`). -/
inductive RedisType where
  | String (s : Bytes)
  | Int (n : Int)
  | Timestamp (n : Nat)
  | Array (a : List RedisType)

mutual

/-- `RedisType::to_vec` from `src/types.rs`: RESP2 serialization.
Bulk string `$<len>\r\n<bytes>\r\n`; integers and timestamps
`:<decimal>\r\n`; arrays `*<len>\r\n` followed by each element. -/
def to_vec : RedisType → Bytes
  | .String s => [36] ++ natDigits s.length ++ crlf ++ s ++ crlf
  | .Int n => [58] ++ intDigits n ++ crlf
  | .Timestamp n => [58] ++ natDigits n ++ crlf
  | .Array a => [42] ++ natDigits a.length ++ crlf ++ toVecList a

/-- Concatenated encodings of a list of values (the `concat` of the
per-element `to_vec` results in the `Array` arm of `to_vec`). -/
def toVecList : List RedisType → Bytes
  | [] => []
  | t :: ts => to_vec t ++ toVecList ts

end

/-- Decoder failure modes: `fatal` models a Rust panic (an arithmetic
underflow or slice out of bounds); `err` models a recoverable
`anyhow::Result::Err` (protocol error or short read). -/
inductive DErr where
  | fatal
  | err
deriving DecidableEq

/-- Rust `BufRead::read_line`: split the stream at the first `\n`
(inclusive); at end of stream, return whatever is left.  Returns the
line read and the unread remainder. -/
def readLine : Bytes → Bytes × Bytes
  | [] => ([], [])
  | b :: rest =>
    if b = 10 then ([10], rest)
    else
      let p := readLine rest
      (b :: p.1, p.2)

/-- `get_string` from `src/io.rs`: read one line; a zero-byte read is
end of stream (`Ok(None)`); otherwise return the line with its final
two bytes stripped (`&buf[0..read_bytes - 2]`) together with the raw
byte count.  When the line is a single byte, `read_bytes - 2`
underflows `usize` and the program panics (`DErr.fatal`).  Also
returns the unread remainder of the stream. -/
def get_string (input : Bytes) : Except DErr (Option (Bytes × Nat × Bytes)) :=
  if input.isEmpty then .ok none
  else
    let line := (readLine input).1
    let rest := (readLine input).2
    if line.length < 2 then .error .fatal
    else .ok (some (line.take (line.length - 2), line.length, rest))

/-- ASCII decimal digit test. -/
def isDigit (b : Nat) : Bool := 48 ≤ b && b ≤ 57

/-- Value of a string of ASCII digits. -/
def digitsVal (s : Bytes) : Nat := s.foldl (fun acc d => acc * 10 + (d - 48)) 0

/-- Rust `str::parse::<usize>` / `parse::<u64>`: an optional leading
`+`, then one or more decimal digits (overflow is not modelled; the
claims never exercise it). -/
def parseUsize (s : Bytes) : Option Nat :=
  let t := if s.head? = some 43 then s.tail else s
  if t.isEmpty then none
  else if t.all isDigit then some (digitsVal t) else none

/-- `read_bulk_length` from `src/io.rs`: read a line `$<n>`; an empty
line or a line not starting with `$` or with an unparsable length is a
protocol error.  Returns the length, the line byte count, and the
remainder. -/
def read_bulk_length (input : Bytes) : Except DErr (Option (Nat × Nat × Bytes)) :=
  match get_string input with
  | .error e => .error e
  | .ok none => .ok none
  | .ok (some (s, b, rest)) =>
    if s.isEmpty then .error .err
    else if s.head? ≠ some 36 then .error .err
    else
      match parseUsize s.tail with
      | none => .error .err
      | some n => .ok (some (n, b, rest))

/-- `read_bulk_string` from `src/io.rs`: after the `$<n>` header, read
exactly `n + 2` bytes and keep the first `n` as the payload; a short
stream is an io error.  Byte count is the header line plus `n + 2`. -/
def read_bulk_string (input : Bytes) : Except DErr (Option (Bytes × Nat × Bytes)) :=
  match read_bulk_length input with
  | .error e => .error e
  | .ok none => .ok none
  | .ok (some (n, b, rest)) =>
    if rest.length < n + 2 then .error .err
    else .ok (some (rest.take n, b + n + 2, rest.drop (n + 2)))

/-- `Command` from `src/io.rs`: a decoded command frame, holding the
payload strings and the number of wire bytes the frame consumed. -/
structure Command where
  payload : List Bytes
  length : Nat
deriving DecidableEq

/-- The `for _ in 0..chunks` loop of `read_command`: read `k` bulk
strings, accumulating payloads and byte counts; a clean end of stream
mid-frame yields `Ok(None)`. -/
def readChunks : Nat → Bytes → Except DErr (Option (List Bytes × Nat × Bytes))
  | 0, rest => .ok (some ([], 0, rest))
  | k + 1, rest =>
    match read_bulk_string rest with
    | .error e => .error e
    | .ok none => .ok none
    | .ok (some (s, b, rest1)) =>
      match readChunks k rest1 with
      | .error e => .error e
      | .ok none => .ok none
      | .ok (some (ss, bs, rest2)) => .ok (some (s :: ss, b + bs, rest2))

/-- ASCII whitespace bytes recognized by Rust `split_whitespace`
(space, tab, newline, vertical tab, form feed, carriage return). -/
def isWsByte (b : Nat) : Bool :=
  b = 32 || b = 9 || b = 10 || b = 11 || b = 12 || b = 13

/-- Accumulating worker for `splitWs`. -/
def splitWsAux : Bytes → Bytes → List Bytes
  | [], acc => if acc.isEmpty then [] else [acc.reverse]
  | b :: rest, acc =>
    if isWsByte b then
      if acc.isEmpty then splitWsAux rest [] else acc.reverse :: splitWsAux rest []
    else splitWsAux rest (b :: acc)

/-- Rust `str::split_whitespace` on ASCII bytes. -/
def splitWs (s : Bytes) : List Bytes := splitWsAux s []

/-- `read_command` from `src/io.rs`: read one line; if it starts with
`*`, parse the element count and read that many bulk strings,
accumulating the wire byte count; otherwise fall back to whitespace
splitting of the line (inline command).  End of stream at the top
yields `Ok(None)`.  Also returns the unread remainder. -/
def read_command (input : Bytes) : Except DErr (Option (Command × Bytes)) :=
  match get_string input with
  | .error e => .error e
  | .ok none => .ok none
  | .ok (some (s, b, rest)) =>
    if s.head? = some 42 then
      match parseUsize s.tail with
      | none => .error .err
      | some chunks =>
        match readChunks chunks rest with
        | .error e => .error e
        | .ok none => .ok none
        | .ok (some (ss, cb, rest2)) => .ok (some (⟨ss, b + cb⟩, rest2))
    else .ok (some (⟨splitWs s, b⟩, rest))

/-- The spec's reading of `decode` as returning a `Value`: a decoded
command frame is an array of bulk strings, so the decoded value
corresponding to `Command {payload}` is `Array(payload.map String)`.
This definition follows the spec's words (for the round-trip claim);
`read_command` above is the source's decoder. -/
def decodedAsValue (bs : Bytes) : Option RedisType :=
  match read_command bs with
  | .ok (some (c, _)) => some (.Array (c.payload.map .String))
  | _ => none

/-- `StoreValue` from `src/store.rs`: a permanent entry or one with an
absolute expiry deadline (`SystemTime`, modelled as ms since epoch). -/
inductive StoreValue where
  | Permanent (v : RedisType)
  | Expirable (v : RedisType) (deadline : Nat)

/-- The Store's `HashMap<String, StoreValue>` is modelled as an
association list with unique keys (every mutation below preserves key
uniqueness, mirroring `HashMap` semantics). -/
abbrev StoreData := List (Bytes × StoreValue)

/-- `HashMap::get`: first (hence, with unique keys, only) binding. -/
def lookupStore : StoreData → Bytes → Option StoreValue
  | [], _ => none
  | (k, v) :: rest, key => if k = key then some v else lookupStore rest key

/-- `Store::write` / `HashMap::insert`: replace the binding if the key
is present, else append it. -/
def writeStore : StoreData → Bytes → StoreValue → StoreData
  | [], key, v => [(key, v)]
  | (k, w) :: rest, key, v =>
    if k = key then (key, v) :: rest else (k, w) :: writeStore rest key v

/-- `HashMap::remove`: with unique keys, removing a key is filtering
out its binding. -/
def removeStore (d : StoreData) (key : Bytes) : StoreData :=
  d.filter (fun p => decide (p.1 ≠ key))

/-- `Store::read` from `src/store.rs`: a permanent entry is returned;
an expirable entry is returned while `now < deadline` and otherwise
removed from the map and reported absent (lazy expiry).  Returns the
read result and the updated map. -/
def storeRead (now : Nat) (d : StoreData) (key : Bytes) : Option RedisType × StoreData :=
  match lookupStore d key with
  | none => (none, d)
  | some (.Permanent v) => (some v, d)
  | some (.Expirable v deadline) =>
    if now < deadline then (some v, d) else (none, removeStore d key)

/-- `CommandResponse` from `src/store.rs`.  (`RdbFile` carries a path,
modelled as bytes; it is never sent by `store_loop`.) -/
inductive CommandResponse where
  | RdbFile (path : Bytes)
  | ClientId (id : Nat)
  | Get (v : Option RedisType)
  | Keys (v : RedisType)
  | ReplicaCount (n : Nat)

/-- `StoreCommand` from `src/store.rs`.  The `Sender` channel endpoints
carried by `InitClient` / `InitReplica` are identified by `Nat`
tokens. -/
inductive StoreCommand where
  | InitClient (tok : Nat)
  | InitReplica (tok : Nat)
  | Set (key : Bytes) (value : RedisType)
  | SetEx (key : Bytes) (value : RedisType) (deadline : Nat)
  | Get (id : Nat) (key : Bytes)
  | AllKeys (id : Nat)
  | ReplicaCount (id : Nat)

/-- The state owned by `store_loop`: the map plus the two sink
registries (`clients` indexed by position = client id, `replicas`). -/
structure StoreState where
  data : StoreData
  clients : List Nat
  replicas : List Nat

/-- One channel send performed by the Store: raw bytes into a replica
byte sink, or a `CommandResponse` into a client reply sink. -/
inductive Effect where
  | ReplicaSend (tok : Nat) (bytes : Bytes)
  | ClientSend (tok : Nat) (resp : CommandResponse)

/-- The value replicated for `Set{key, value}`:
`Array[String("SET"), String(key), String(value)]`. -/
def setPayload (key value : Bytes) : RedisType :=
  .Array [.String (ascii "SET"), .String key, .String value]

/-- The value replicated for `SetEx{key, value, deadline}`:
`Array[String("SET"), String(key), String(value), String("PXAT"),
Timestamp(deadline_ms)]`. -/
def setExPayload (key value : Bytes) (deadline : Nat) : RedisType :=
  .Array [.String (ascii "SET"), .String key, .String value,
          .String (ascii "PXAT"), .Timestamp deadline]

/-- `replicate` from `src/store.rs`: encode the payload once
(`payload.to_vec()`) and send an identical copy to every replica sink,
in registry order. -/
def replicate (replicas : List Nat) (payload : RedisType) : List Effect :=
  replicas.map (fun r => .ReplicaSend r (to_vec payload))

/-- One iteration of `store_loop` from `src/store.rs`, processing a
single dequeued `StoreCommand`.  Returns the new state and the channel
sends performed, in order; `none` models a panic (the
`panic!("SET accepted a value that is not a string!")` arms, or an
out-of-bounds `clients[id]`). -/
def storeStep (now : Nat) (st : StoreState) : StoreCommand → Option (StoreState × List Effect)
  | .InitClient tok =>
    some ({ st with clients := st.clients ++ [tok] },
          [.ClientSend tok (.ClientId st.clients.length)])
  | .InitReplica tok =>
    some ({ st with replicas := st.replicas ++ [tok] }, [])
  | .Set key value =>
    if st.replicas.isEmpty then
      some ({ st with data := writeStore st.data key (.Permanent value) }, [])
    else
      match value with
      | .String s =>
        some ({ st with data := writeStore st.data key (.Permanent (.String s)) },
              replicate st.replicas (setPayload key s))
      | _ => none
  | .SetEx key value deadline =>
    if st.replicas.isEmpty then
      some ({ st with data := writeStore st.data key (.Expirable value deadline) }, [])
    else
      match value with
      | .String s =>
        some ({ st with data := writeStore st.data key (.Expirable (.String s) deadline) },
              replicate st.replicas (setExPayload key s deadline))
      | _ => none
  | .Get id key =>
    match st.clients.get? id with
    | none => none
    | some tok =>
      let r := storeRead now st.data key
      some ({ st with data := r.2 }, [.ClientSend tok (.Get r.1)])
  | .AllKeys id =>
    match st.clients.get? id with
    | none => none
    | some tok =>
      some (st, [.ClientSend tok (.Keys (.Array (st.data.map (fun p => .String p.1))))])
  | .ReplicaCount id =>
    match st.clients.get? id with
    | none => none
    | some tok =>
      some (st, [.ClientSend tok (.ReplicaCount st.replicas.length)])

/-- `store_loop` over a whole FIFO queue of commands: process them in
order, concatenating the emitted channel sends; `none` if any step
panics. -/
def storeRun (now : Nat) (st : StoreState) : List StoreCommand → Option (StoreState × List Effect)
  | [] => some (st, [])
  | c :: cs =>
    match storeStep now st c with
    | none => none
    | some (st1, e1) =>
      match storeRun now st1 cs with
      | none => none
      | some (st2, e2) => some (st2, e1 ++ e2)

/-- The stream of byte buffers a given replica sink receives, in send
order. -/
def replicaBytesTo (tok : Nat) (effs : List Effect) : List Bytes :=
  effs.filterMap (fun e =>
    match e with
    | .ReplicaSend t b => if t = tok then some b else none
    | _ => none)

/-- The `(sink token, assigned id)` pairs of all `ClientId` responses
in an effect list, in send order. -/
def idResponses (effs : List Effect) : List (Nat × Nat) :=
  effs.filterMap (fun e =>
    match e with
    | .ClientSend t (.ClientId i) => some (t, i)
    | _ => none)

/-- The sink tokens of the `InitClient` commands of a queue, in order. -/
def initTokens (cmds : List StoreCommand) : List Nat :=
  cmds.filterMap (fun c =>
    match c with
    | .InitClient t => some t
    | _ => none)

/-- Tokens paired with consecutive ids starting at `start`. -/
def assignIds (start : Nat) : List Nat → List (Nat × Nat)
  | [] => []
  | t :: ts => (t, start) :: assignIds (start + 1) ts

/-- Whether a command is a write (`Set` or `SetEx`). -/
def isWrite : StoreCommand → Bool
  | .Set _ _ => true
  | .SetEx _ _ _ => true
  | _ => false

/-- Whether a command is an `InitReplica` registration. -/
def isInitReplica : StoreCommand → Bool
  | .InitReplica _ => true
  | _ => false

/-- The replicated byte buffer of a write command (meaningful only for
string-valued writes, the only ones the Store replicates). -/
def writePayloadBytes : StoreCommand → Bytes
  | .Set key (.String s) => to_vec (setPayload key s)
  | .SetEx key (.String s) deadline => to_vec (setExPayload key s deadline)
  | _ => []

/-- The bytes of `write_ok` from `src/io.rs`. -/
def okBytes : Bytes := ascii "+OK\r\n"

/-- The `-ERR <msg>\r\n` line emitted by `Client::send_error_message`
in `src/client.rs` when `dispatch` returns an error. -/
def errReply (msg : String) : Bytes := ascii "-ERR " ++ ascii msg ++ crlf

/-- The error outcomes of `handle_set` (`bail!` / parse failure); the
message texts are irrelevant to the claims. -/
inductive SetError where
  | wrongArity
  | syntaxError
  | notAnInteger
deriving DecidableEq

/-- `handle_set` from `src/common_cli_rep.rs`, as invoked by its two
call sites.  Modelled from the spec: both callers pass a fourth
`reply : bool` argument (`true` at `client.rs:95`, `false` at
`replica.rs:143`) which the stale three-parameter copy of
`common_cli_rep.rs` in the tree does not declare; per the spec the
replica path forwards the write "without replying" while the client
path replies `+OK`.  Everything else (arity check, `PX` parsing, the
`Set`/`SetEx` construction with `deadline = now + ms`) follows the
source text of `common_cli_rep.rs`.  Returns the commands sent to the
Store and the bytes written back to the connection. -/
def handle_set (now : Nat) (args : List Bytes) (reply : Bool) :
    Except SetError (List StoreCommand × Bytes) :=
  match args with
  | [key, value] =>
    .ok ([.Set key (.String value)], if reply then okBytes else [])
  | [key, value, opt, ms] =>
    if lowerBytes opt = ascii "px" then
      match parseUsize ms with
      | none => .error .notAnInteger
      | some n =>
        .ok ([.SetEx key (.String value) (now + n)], if reply then okBytes else [])
    else .error .syntaxError
  | _ => .error .wrongArity

/-- `Client::handle_keys` from `src/client.rs`, composed with the
Store round trip it performs and with the error path of `client_loop`
(`send_error_message` formats a `bail!`-ed message as `-ERR …`).
Given the current time, the Store map and the single `KEYS` argument,
returns the bytes written to the client and the resulting Store map:

* `"*"` → `AllKeys`: the array of all keys currently in the map
  (`RedisType::write` emits the same bytes as `to_vec` for an array of
  strings);
* any other argument containing `*` → the unsupported-pattern error;
* otherwise → a `Get` round trip (lazily expiring the key), answering
  a one-element array when the value is present and `[]` otherwise. -/
def clientKeysReply (now : Nat) (d : StoreData) (arg : Bytes) : Bytes × StoreData :=
  if arg = ascii "*" then
    (to_vec (.Array (d.map (fun p => .String p.1))), d)
  else if arg.contains 42 then
    (errReply "general pattern matching unsupported", d)
  else
    let r := storeRead now d arg
    match r.1 with
    | some _ => (to_vec (.Array [.String arg]), r.2)
    | none => (to_vec (.Array []), r.2)

/-- The configuration facts `info_on` depends on: whether `replicaof`
is set, and the `ReplicaInfo` digest string and offset (the SHA-1
digest is treated as an opaque byte string). -/
structure ConfigInfo where
  isReplica : Bool
  digest : Bytes
  offset : Nat

/-- `Vec::join` with CRLF separator, as used by `info_on`. -/
def joinCrlf : List Bytes → Bytes
  | [] => []
  | [x] => x
  | x :: xs => x ++ crlf ++ joinCrlf xs

/-- `info_on` from `src/info.rs`: only the `replication` section is
known; any other section renders as the empty string. -/
def info_on (cfg : ConfigInfo) (sec : Bytes) : Bytes :=
  if sec = ascii "replication" then
    joinCrlf
      [ascii "# Replication",
       (if cfg.isReplica then ascii "role:slave" else ascii "role:master"),
       ascii "connected_slaves:0",
       ascii "master_replid:" ++ cfg.digest,
       ascii "master_repl_offset:" ++ natDigits cfg.offset]
  else []

/-- `all_info` from `src/info.rs`: render every known section
(`SECTIONS = [replication]`) and CRLF-join. -/
def all_info (cfg : ConfigInfo) : Bytes :=
  joinCrlf [info_on cfg (ascii "replication")]

/-- Fuel-free worker for `Itertools::unique`. -/
def uniqueFirstAux : List Bytes → List Bytes → List Bytes
  | [], _ => []
  | x :: xs, seen =>
    if x ∈ seen then uniqueFirstAux xs seen else x :: uniqueFirstAux xs (x :: seen)

/-- `Itertools::unique`: keep the first occurrence of each element, in
order (`uniqueFirstAux` carries the set of elements already seen). -/
def uniqueFirst (l : List Bytes) : List Bytes := uniqueFirstAux l []

/-- `Client::handle_info` from `src/client.rs`, composed with the
`ConfigCommand::InfoOn` / `AllInfo` round trips of `config_loop`
(`src/config.rs`).  With arguments, the lowercased deduplicated
sections are each rendered by `info_on`, the renders are joined with
the EMPTY separator (`answer.join("")`), and a final CRLF is appended
whenever the `Vec` of renders is nonempty (`answer.len() > 0` counts
sections, not bytes); the result is written as one bulk string. -/
def handle_info (cfg : ConfigInfo) (args : List Bytes) : Bytes :=
  let answer :=
    if args.isEmpty then all_info cfg ++ crlf
    else
      let sections := uniqueFirst (args.map lowerBytes)
      let rendered := sections.map (info_on cfg)
      if rendered.length > 0 then rendered.flatten ++ crlf else []
  to_vec (.String answer)

/-- `RedisType::from(vec![…])` as used in `src/replica.rs`.  Modelled
from the spec: the `From<Vec<&str>>` impl for `RedisType` is not in
the tree (only its callers are); per §4.7 the built value serializes
as `*3\r\n$8\r\nREPLCONF\r\n$3\r\nACK\r\n$<n>\r\n<n>\r\n`, i.e. it is
the array of the bulk strings. -/
def fromVec (ss : List Bytes) : RedisType := .Array (ss.map .String)

/-- `Replica::dispatch` from `src/replica.rs`, for one ingested frame
payload: returns the bytes written back on the master connection and
the commands forwarded to the local Store.  `set` goes through
`handle_set` with `reply = false`; `replconf getack *` answers
`REPLCONF ACK <total_bytes>` (written with `RedisType::write`, whose
bytes for a flat string array equal `to_vec`); `ping` and anything
else write nothing (errors are discarded by `replica_loop` via
`let _ = replica.dispatch(…)`, and every `bail!` happens before any
write).  `none` models the `cmd_vec[0]` panic on an empty payload. -/
def replicaDispatch (now : Nat) (total : Nat) (payload : List Bytes) :
    Option (Bytes × List StoreCommand) :=
  match payload with
  | [] => none
  | name :: args =>
    if lowerBytes name = ascii "set" then
      match handle_set now args false with
      | .ok (sends, out) => some (out, sends)
      | .error _ => some ([], [])
    else if lowerBytes name = ascii "replconf" then
      match args with
      | [a0, a1] =>
        if lowerBytes a0 = ascii "getack" then
          if a1 = ascii "*" then
            some (to_vec (fromVec [ascii "REPLCONF", ascii "ACK", natDigits total]), [])
          else some ([], [])
        else some ([], [])
      | _ => some ([], [])
    else some ([], [])

/-- One iteration of the ingest loop of `replica_loop` from
`src/replica.rs`: dispatch the decoded frame, THEN add the frame's
wire byte count to `total_bytes`.  Returns the bytes written to the
master, the Store commands sent, and the updated byte counter. -/
def replicaStep (now : Nat) (total : Nat) (f : Command) :
    Option (Bytes × List StoreCommand × Nat) :=
  match replicaDispatch now total f.payload with
  | none => none
  | some (out, sends) => some (out, sends, total + f.length)

/-- The ingest loop over a list of decoded frames, concatenating the
bytes written back to the master and the Store commands sent. -/
def replicaRun (now : Nat) (total : Nat) : List Command → Option (Bytes × List StoreCommand × Nat)
  | [] => some ([], [], total)
  | f :: fs =>
    match replicaStep now total f with
    | none => none
    | some (out, sends, t1) =>
      match replicaRun now t1 fs with
      | none => none
      | some (outs, sends2, t2) => some (out ++ outs, sends ++ sends2, t2)

/-- Total wire bytes of a list of frames. -/
def sumLengths (fs : List Command) : Nat := (fs.map Command.length).sum

/-- The `REPLCONF GETACK *` frame payload. -/
def getackPayload : List Bytes := [ascii "REPLCONF", ascii "GETACK", ascii "*"]

/-- The `REPLCONF ACK <n>` reply bytes for a given byte count. -/
def ackBytes (n : Nat) : Bytes :=
  to_vec (fromVec [ascii "REPLCONF", ascii "ACK", natDigits n])

/-- Whether a `RedisType` is the `String` variant. -/
def isStringValue : RedisType → Bool
  | .String _ => true
  | _ => false

/-! ## General helper lemmas -/

theorem isEmpty_false_of_ne_nil {α : Type} {l : List α} (h : l ≠ []) :
    l.isEmpty = false := by
  cases l with
  | nil => exact absurd rfl h
  | cons a t => rfl

/-! ## Decimal rendering and parsing -/

theorem natDigitsCore_congr :
    ∀ f1 f2 n : Nat, n ≤ f1 → n ≤ f2 → natDigitsCore f1 n = natDigitsCore f2 n := by
  intro f1
  induction f1 with
  | zero =>
    intro f2 n h1 _
    have hn : n = 0 := by omega
    subst hn
    cases f2 <;> simp [natDigitsCore]
  | succ a ih =>
    intro f2 n h1 h2
    cases f2 with
    | zero =>
      have hn : n = 0 := by omega
      subst hn
      simp [natDigitsCore]
    | succ b =>
      simp only [natDigitsCore]
      by_cases h : n < 10
      · simp [h]
      · simp only [h, if_false]
        have hd : n / 10 < n := Nat.div_lt_self (by omega) (by omega)
        rw [ih b (n / 10) (by omega) (by omega)]

theorem natDigits_eq (n : Nat) :
    natDigits n = if n < 10 then [48 + n] else natDigits (n / 10) ++ [48 + n % 10] := by
  show natDigitsCore n n = _
  cases hn : n with
  | zero => simp [natDigitsCore]
  | succ m =>
    simp only [natDigitsCore]
    by_cases h : m + 1 < 10
    · simp [h]
    · simp only [h, if_false]
      have hd : (m + 1) / 10 < m + 1 := Nat.div_lt_self (by omega) (by omega)
      rw [natDigitsCore_congr m ((m + 1) / 10) ((m + 1) / 10) (by omega) (Nat.le_refl _)]
      rfl

theorem natDigits_bounds (n : Nat) : ∀ b ∈ natDigits n, 48 ≤ b ∧ b ≤ 57 := by
  induction n using Nat.strong_induction_on with
  | _ n ih =>
    rw [natDigits_eq]
    by_cases h : n < 10
    · simp only [h, if_true]
      intro b hb
      simp only [List.mem_singleton] at hb
      omega
    · simp only [h, if_false]
      intro b hb
      rcases List.mem_append.mp hb with h1 | h2
      · exact ih (n / 10) (Nat.div_lt_self (by omega) (by omega)) b h1
      · simp only [List.mem_singleton] at h2
        have := Nat.mod_lt n (show 0 < 10 by omega)
        omega

theorem natDigits_ne_nil (n : Nat) : natDigits n ≠ [] := by
  rw [natDigits_eq]
  by_cases h : n < 10 <;> simp [h]

theorem natDigits_no_lf (n : Nat) : ∀ b ∈ natDigits n, b ≠ 10 := by
  intro b hb
  have := natDigits_bounds n b hb
  omega

theorem digitsVal_append (a : Bytes) (d : Nat) :
    digitsVal (a ++ [d]) = 10 * digitsVal a + (d - 48) := by
  simp only [digitsVal, List.foldl_append, List.foldl_cons, List.foldl_nil]
  omega

theorem digitsVal_natDigits (n : Nat) : digitsVal (natDigits n) = n := by
  induction n using Nat.strong_induction_on with
  | _ n ih =>
    rw [natDigits_eq]
    by_cases h : n < 10
    · simp only [h, if_true, digitsVal, List.foldl_cons, List.foldl_nil]
      omega
    · simp only [h, if_false, digitsVal_append]
      rw [ih (n / 10) (Nat.div_lt_self (by omega) (by omega))]
      have h2 := Nat.div_add_mod n 10
      have := Nat.mod_lt n (show 0 < 10 by omega)
      omega

theorem natDigits_all_digits (n : Nat) : (natDigits n).all isDigit = true := by
  rw [List.all_eq_true]
  intro b hb
  have := natDigits_bounds n b hb
  simp only [isDigit, Bool.and_eq_true, decide_eq_true_eq]
  omega

theorem parseUsize_natDigits (n : Nat) : parseUsize (natDigits n) = some n := by
  have hne := natDigits_ne_nil n
  have hhead : (natDigits n).head? ≠ some 43 := by
    cases h : natDigits n with
    | nil => exact absurd h hne
    | cons b t =>
      have hb : b ∈ natDigits n := by rw [h]; exact List.mem_cons_self b t
      have := natDigits_bounds n b hb
      simp only [List.head?_cons, ne_eq, Option.some.injEq]
      omega
  simp only [parseUsize, if_neg hhead, isEmpty_false_of_ne_nil hne,
    Bool.false_eq_true, if_false, natDigits_all_digits, if_true,
    digitsVal_natDigits]

/-! ## Line reading -/

theorem readLine_no_lf_append (l : Bytes) (rest : Bytes) (h : ∀ b ∈ l, b ≠ 10) :
    readLine (l ++ 10 :: rest) = (l ++ [10], rest) := by
  induction l with
  | nil => simp [readLine]
  | cons b t ih =>
    have hb : b ≠ 10 := h b (List.mem_cons_self b t)
    simp only [List.cons_append, readLine, hb, if_false, List.append_eq]
    rw [ih (fun x hx => h x (List.mem_cons_of_mem b hx))]

theorem get_string_crlf (pre : Bytes) (rest : Bytes) (h : ∀ b ∈ pre, b ≠ 10) :
    get_string (pre ++ crlf ++ rest) = .ok (some (pre, pre.length + 2, rest)) := by
  have hno : ∀ b ∈ pre ++ [13], b ≠ 10 := by
    intro b hb
    rcases List.mem_append.mp hb with h1 | h2
    · exact h b h1
    · simp only [List.mem_singleton] at h2
      omega
  have hline := readLine_no_lf_append (pre ++ [13]) rest hno
  have hsplit : pre ++ crlf ++ rest = (pre ++ [13]) ++ 10 :: rest := by
    simp [crlf]
  rw [hsplit]
  have hne : ((pre ++ [13]) ++ 10 :: rest).isEmpty = false := by
    cases pre <;> rfl
  simp only [get_string, hne, Bool.false_eq_true, if_false, hline]
  have hlen : (((pre ++ [13]) ++ [10]) : Bytes).length = pre.length + 2 := by simp
  have htake : (((pre ++ [13]) ++ [10]) : Bytes).take (pre.length + 2 - 2) = pre := by
    have h2 : ((pre ++ [13]) ++ [10] : Bytes) = pre ++ [13, 10] := by simp
    rw [h2, Nat.add_sub_cancel]
    exact (by simpa using List.take_left pre [13, 10] : List.take pre.length (pre ++ [13, 10]) = pre)
  rw [hlen, if_neg (by omega : ¬ (pre.length + 2 < 2)), htake]

/-! ## Decoding an encoded bulk string -/

theorem to_vec_string_eq (s : Bytes) :
    to_vec (.String s) = (36 :: natDigits s.length) ++ crlf ++ (s ++ crlf) := by
  simp [to_vec]

theorem to_vec_string_length (s : Bytes) :
    (to_vec (.String s)).length = (natDigits s.length).length + s.length + 5 := by
  rw [to_vec_string_eq]
  simp [crlf]
  omega

theorem read_bulk_string_encoded (s : Bytes) (extra : Bytes) :
    read_bulk_string (to_vec (.String s) ++ extra) =
      .ok (some (s, (to_vec (.String s)).length, extra)) := by
  have hpre : ∀ b ∈ 36 :: natDigits s.length, b ≠ 10 := by
    intro b hb
    rcases List.mem_cons.mp hb with h1 | h2
    · omega
    · exact natDigits_no_lf _ b h2
  have hshape : to_vec (.String s) ++ extra =
      (36 :: natDigits s.length) ++ crlf ++ ((s ++ crlf) ++ extra) := by
    rw [to_vec_string_eq]
    simp
  have hget := get_string_crlf (36 :: natDigits s.length) ((s ++ crlf) ++ extra) hpre
  have hlen : ((s ++ crlf) ++ extra : Bytes).length = s.length + 2 + extra.length := by
    simp [crlf]
    omega
  have htake : ((s ++ crlf) ++ extra : Bytes).take s.length = s := by
    have h2 : ((s ++ crlf) ++ extra : Bytes) = s ++ (crlf ++ extra) := by simp
    rw [h2]
    exact (by simpa using List.take_left s (crlf ++ extra) :
      List.take s.length (s ++ (crlf ++ extra)) = s)
  have hdrop : ((s ++ crlf) ++ extra : Bytes).drop (s.length + 2) = extra := by
    have h2 : s.length + 2 = ((s ++ crlf : Bytes)).length := by simp [crlf]
    rw [h2]
    exact List.drop_left (s ++ crlf) extra
  rw [hshape]
  simp only [read_bulk_string, read_bulk_length, hget]
  simp only [List.isEmpty_cons, Bool.false_eq_true, if_false, List.head?_cons,
    ne_eq, not_true_eq_false, List.tail_cons, parseUsize_natDigits,
    if_false]
  rw [hlen, if_neg (by omega : ¬ (s.length + 2 + extra.length < s.length + 2)),
    htake, hdrop, to_vec_string_length]
  simp only [List.length_cons]
  have : (natDigits s.length).length + 1 + 2 + s.length + 2 =
      (natDigits s.length).length + s.length + 5 := by omega
  rw [this]

theorem toVecList_cons (t : RedisType) (ts : List RedisType) :
    toVecList (t :: ts) = to_vec t ++ toVecList ts := by
  rw [toVecList]

theorem readChunks_encoded (ss : List Bytes) (extra : Bytes) :
    readChunks ss.length (toVecList (ss.map .String) ++ extra) =
      .ok (some (ss, (toVecList (ss.map .String)).length, extra)) := by
  induction ss generalizing extra with
  | nil => simp [readChunks, toVecList]
  | cons s tail ih =>
    have hshape : toVecList ((s :: tail).map .String) ++ extra =
        to_vec (.String s) ++ (toVecList (tail.map .String) ++ extra) := by
      simp [toVecList_cons]
    rw [List.length_cons, hshape]
    simp only [readChunks, read_bulk_string_encoded, ih]
    have : (to_vec (.String s)).length + (toVecList (tail.map .String)).length =
        (toVecList ((s :: tail).map .String)).length := by
      simp [toVecList_cons]
    rw [this]

/-- C3, counterexample: the round-trip `decode(encode(v)) == v` fails
at the concrete value `Int 5`.  `to_vec (Int 5)` is `:5\r\n`; fed to
`read_command` this is an inline command whose payload is the single
string `":5"`, not the integer value 5 (indeed `read_command` can only
ever yield command frames, i.e. arrays of strings). -/
theorem decode_encode_int_not_id :
    decodedAsValue (to_vec (RedisType.Int 5)) ≠ some (RedisType.Int 5) := by
  intro h
  have e : decodedAsValue (to_vec (RedisType.Int 5)) =
      some (.Array [.String (ascii ":5")]) := rfl
  rw [e] at h
  exact RedisType.noConfusion (Option.some.inj h)

/-- C3, amended: the round-trip holds exactly on the command-frame
fragment of `Value`: for every flat array of strings, decoding the
RESP encoding consumes it entirely and returns a frame whose payload
is those strings (and whose `length` is the full encoded byte count),
so `decodedAsValue` is the identity there; other `Value` shapes
(integers, timestamps, bare strings, nested arrays) do not round-trip
through the command decoder. -/
theorem read_command_roundtrip_string_array (ss : List Bytes) :
    read_command (to_vec (.Array (ss.map .String))) =
      .ok (some (⟨ss, (to_vec (.Array (ss.map .String))).length⟩, [])) ∧
    decodedAsValue (to_vec (.Array (ss.map .String))) =
      some (.Array (ss.map .String)) := by
  have hpre : ∀ b ∈ 42 :: natDigits ss.length, b ≠ 10 := by
    intro b hb
    rcases List.mem_cons.mp hb with h1 | h2
    · omega
    · exact natDigits_no_lf _ b h2
  have hshape : to_vec (.Array (ss.map .String)) =
      (42 :: natDigits ss.length) ++ crlf ++ toVecList (ss.map .String) := by
    simp [to_vec]
  have hget := get_string_crlf (42 :: natDigits ss.length)
    (toVecList (ss.map .String)) hpre
  have hchunks : readChunks ss.length (toVecList (ss.map .String)) =
      .ok (some (ss, (toVecList (ss.map .String)).length, [])) := by
    have := readChunks_encoded ss []
    simpa using this
  have hlen : (42 :: natDigits ss.length).length + 2 +
      (toVecList (ss.map .String)).length =
      (to_vec (.Array (ss.map .String))).length := by
    rw [hshape]
    simp [crlf]
    omega
  have hmain : read_command (to_vec (.Array (ss.map .String))) =
      .ok (some (⟨ss, (to_vec (.Array (ss.map .String))).length⟩, [])) := by
    conv_lhs => rw [hshape]
    simp only [read_command, hget, List.head?_cons, List.tail_cons,
      parseUsize_natDigits, hchunks, reduceIte]
    rw [hlen]
  refine ⟨hmain, ?_⟩
  rw [decodedAsValue, hmain]

/-- C10: the line reader `get_string` is total on lines of at least
two bytes — it returns the line with its final two bytes stripped and
reports the full byte count — but on a stream whose final line is a
single byte with no newline terminator (here the one-byte stream
`"a"`), the slice `buf[0..read_bytes - 2]` underflows and the program
panics (`DErr.fatal`); `read_command` propagates that panic rather
than returning a protocol error (`DErr.err`) or the no-more-frames
result (`Ok(None)`).  (The ASCII hypothesis marks the fragment on
which the byte-level model coincides with Rust's UTF-8 `read_line`
and char-boundary slicing.) -/
theorem get_string_strips_two_bytes_or_panics :
    (∀ input : Bytes, 2 ≤ (readLine input).1.length → (∀ b ∈ input, b < 128) →
       get_string input =
         .ok (some ((readLine input).1.take ((readLine input).1.length - 2),
                    (readLine input).1.length, (readLine input).2))) ∧
    get_string [97] = .error .fatal ∧
    read_command [97] = .error .fatal := by
  refine ⟨?_, rfl, rfl⟩
  intro input hlen _
  have hne : input.isEmpty = false := by
    cases input with
    | nil => simp [readLine] at hlen
    | cons b t => rfl
  simp only [get_string, hne, Bool.false_eq_true, if_false]
  rw [if_neg (by omega)]

/-- C10, witness: the first conjunct applied to the concrete stream
`"ab\r\nxyz"`, whose first line has four bytes. -/
theorem get_string_strips_two_bytes_witness :
    get_string (ascii "ab\r\nxyz") = .ok (some (ascii "ab", 4, ascii "xyz")) := by
  have h := get_string_strips_two_bytes_or_panics.1 (ascii "ab\r\nxyz")
    (by decide) (by decide)
  exact h.trans rfl

/-! ## Replica ingest loop lemmas -/

theorem replicaStep_getack (now t len : Nat) :
    replicaStep now t ⟨getackPayload, len⟩ = some (ackBytes t, [], t + len) := rfl

theorem replicaStep_total (now total : Nat) (f : Command) (o : Bytes)
    (s : List StoreCommand) (t1 : Nat)
    (h : replicaStep now total f = some (o, s, t1)) : t1 = total + f.length := by
  simp only [replicaStep] at h
  cases hd : replicaDispatch now total f.payload with
  | none => rw [hd] at h; cases h
  | some p =>
    rw [hd] at h
    simp only [Option.some.injEq, Prod.mk.injEq] at h
    omega

theorem sumLengths_cons (g : Command) (gs : List Command) :
    sumLengths (g :: gs) = g.length + sumLengths gs := by
  simp [sumLengths]

theorem replicaRun_totalBytes (now : Nat) (fs : List Command) :
    ∀ total outs sends t, replicaRun now total fs = some (outs, sends, t) →
      t = total + sumLengths fs := by
  induction fs with
  | nil =>
    intro total outs sends t h
    simp only [replicaRun, Option.some.injEq, Prod.mk.injEq] at h
    simp [sumLengths]
    omega
  | cons g gs ih =>
    intro total outs sends t h
    simp only [replicaRun] at h
    split at h
    · cases h
    next og sg tg heq1 =>
      split at h
      · cases h
      next oq sq tq heq2 =>
        simp only [Option.some.injEq, Prod.mk.injEq] at h
        have h1 := replicaStep_total now total g og sg tg heq1
        have h2 := ih tg oq sq tq heq2
        rw [sumLengths_cons]
        omega

theorem replicaRun_snoc (now : Nat) (f : Command) (pre : List Command) :
    ∀ total outs sends t out2 sends2 t2,
      replicaRun now total pre = some (outs, sends, t) →
      replicaStep now t f = some (out2, sends2, t2) →
      replicaRun now total (pre ++ [f]) = some (outs ++ out2, sends ++ sends2, t2) := by
  induction pre with
  | nil =>
    intro total outs sends t out2 sends2 t2 h1 h2
    simp only [replicaRun, Option.some.injEq, Prod.mk.injEq] at h1
    obtain ⟨h3, h4, h5⟩ := h1
    subst h3
    subst h4
    subst h5
    simp [replicaRun, h2]
  | cons g gs ih =>
    intro total outs sends t out2 sends2 t2 h1 h2
    simp only [replicaRun] at h1
    split at h1
    · cases h1
    next og sg tg heq1 =>
      split at h1
      · cases h1
      next oq sq tq heq2 =>
        simp only [Option.some.injEq, Prod.mk.injEq] at h1
        obtain ⟨h3, h4, h5⟩ := h1
        subst h3
        subst h4
        subst h5
        have hrec := ih tg oq sq tq out2 sends2 t2 heq2 h2
        simp only [List.cons_append, replicaRun, heq1, List.append_eq]
        rw [hrec]
        simp [List.append_assoc]

/-- C2, counterexample: a `REPLCONF GETACK *` frame arriving as the
very first frame after handshake completion (37 wire bytes, the size
of the real frame) is answered with `REPLCONF ACK 0`, not
`REPLCONF ACK 37`: `replica_loop` increments `total_bytes` only AFTER
`dispatch` returns, so the reply does not include the current GETACK
frame's own bytes, contrary to the claim. -/
theorem replica_getack_excludes_own_bytes :
    replicaRun 0 0 [⟨getackPayload, 37⟩] = some (ackBytes 0, [], 37) ∧
    ackBytes 0 ≠ ackBytes 37 := by
  exact ⟨rfl, by decide⟩

/-- C2, amended: for every `REPLCONF GETACK *` frame received after
handshake completion, the replica replies with the RESP array
`["REPLCONF", "ACK", n]` where `n` is the cumulative wire byte count
of the frames consumed from the master BEFORE the current frame — the
current GETACK frame's own bytes are excluded, because `replica_loop`
adds each frame's `length` to `total_bytes` only after dispatching
it.  (The frame's own bytes are counted from the next frame on, as
the final counter `t + len` shows.) -/
theorem replica_getack_acks_prior_bytes (now : Nat) (pre : List Command)
    (len : Nat) (outs : Bytes) (sends : List StoreCommand) (t : Nat)
    (h : replicaRun now 0 pre = some (outs, sends, t)) :
    replicaRun now 0 (pre ++ [⟨getackPayload, len⟩]) =
      some (outs ++ ackBytes t, sends, t + len) ∧
    t = sumLengths pre := by
  constructor
  · have := replicaRun_snoc now ⟨getackPayload, len⟩ pre 0 outs sends t
      (ackBytes t) [] (t + len) h (replicaStep_getack now t len)
    simpa using this
  · have := replicaRun_totalBytes now pre 0 outs sends t h
    omega

/-- C2, witness: after one `PING` frame of 14 bytes, a GETACK frame of
37 bytes is answered with `REPLCONF ACK 14`. -/
theorem replica_getack_acks_prior_bytes_witness :
    replicaRun 0 0 ([⟨[ascii "PING"], 14⟩] ++ [⟨getackPayload, 37⟩]) =
      some ([] ++ ackBytes 14, [], 14 + 37) ∧
    (14 : Nat) = sumLengths [⟨[ascii "PING"], 14⟩] :=
  replica_getack_acks_prior_bytes 0 [⟨[ascii "PING"], 14⟩] 37 [] [] 14 rfl

/-- C5: when the replica ingest loop processes a `SET key val` or
`SET key val PX ms` frame from the master, it forwards the write to
the local Store as `Set` / `SetEx` (with deadline `now + ms`) and
writes nothing back on the master connection: the reply bytes are `[]`
because the replica's `dispatch` calls `handle_set` with
`reply = false` (`replica.rs:143`).  The byte counter still advances
by the frame length. -/
theorem replica_set_forwards_without_reply :
    (∀ now total (key value : Bytes) (len : Nat),
       replicaStep now total ⟨[ascii "SET", key, value], len⟩ =
         some ([], [.Set key (.String value)], total + len)) ∧
    (∀ now total (key value ms : Bytes) (n len : Nat), parseUsize ms = some n →
       replicaStep now total ⟨[ascii "SET", key, value, ascii "PX", ms], len⟩ =
         some ([], [.SetEx key (.String value) (now + n)], total + len)) := by
  constructor
  · intro now total key value len
    rfl
  · intro now total key value ms n len h
    simp only [replicaStep, replicaDispatch, handle_set, h, reduceIte]
    rfl

/-- C5, witness: the second conjunct at the concrete frame
`SET k v PX 100` (44 wire bytes) with `now = 5`. -/
theorem replica_set_forwards_without_reply_witness :
    replicaStep 5 0 ⟨[ascii "SET", ascii "k", ascii "v", ascii "PX", ascii "100"], 44⟩ =
      some ([], [.SetEx (ascii "k") (.String (ascii "v")) (5 + 100)], 0 + 44) :=
  replica_set_forwards_without_reply.2 5 0 (ascii "k") (ascii "v") (ascii "100")
    100 44 (by decide)

/-- C8, counterexample: a `Set` whose value is not the `String`
variant does NOT panic when no replica sink is registered — the
`match value` with its `panic!` arm sits inside
`if !replicas.is_empty()`, so with `replicas = []` the Store silently
stores `Int 5`, contrary to the claim's "regardless of whether any
replica sinks are registered". -/
theorem store_set_int_stored_without_replicas :
    storeStep 0 ⟨[], [], []⟩ (.Set (ascii "k") (.Int 5)) =
      some (⟨[(ascii "k", .Permanent (.Int 5))], [], []⟩, []) ∧
    storeStep 0 ⟨[], [], []⟩ (.Set (ascii "k") (.Int 5)) ≠ none := by
  constructor
  · rfl
  · intro h
    rw [show storeStep 0 ⟨[], [], []⟩ (.Set (ascii "k") (.Int 5)) =
      some (⟨[(ascii "k", .Permanent (.Int 5))], [], []⟩, []) from rfl] at h
    cases h

/-- C8, amended: the Store fails fast (panics) on a `Set` / `SetEx`
whose value is not the `String` variant only when at least one replica
sink is registered; with no replica sinks the non-string value is
stored without complaint. -/
theorem store_set_nonstring_panics_only_with_replicas
    (now : Nat) (st : StoreState) (key : Bytes) (v : RedisType) (dl : Nat)
    (h : isStringValue v = false) :
    (st.replicas ≠ [] →
       storeStep now st (.Set key v) = none ∧
       storeStep now st (.SetEx key v dl) = none) ∧
    (st.replicas = [] →
       storeStep now st (.Set key v) =
         some ({ st with data := writeStore st.data key (.Permanent v) }, []) ∧
       storeStep now st (.SetEx key v dl) =
         some ({ st with data := writeStore st.data key (.Expirable v dl) }, [])) := by
  constructor
  · intro hne
    have he := isEmpty_false_of_ne_nil hne
    cases v with
    | String s => simp [isStringValue] at h
    | Int n => exact ⟨by simp [storeStep, he], by simp [storeStep, he]⟩
    | Timestamp m => exact ⟨by simp [storeStep, he], by simp [storeStep, he]⟩
    | Array a => exact ⟨by simp [storeStep, he], by simp [storeStep, he]⟩
  · intro hnil
    have he : st.replicas.isEmpty = true := by rw [hnil]; rfl
    exact ⟨by simp [storeStep, he], by simp [storeStep, he]⟩

/-- C8, witness: with one registered replica sink the non-string `Set`
and `SetEx` both panic. -/
theorem store_set_nonstring_panics_witness :
    storeStep 0 ⟨[], [], [3]⟩ (.Set (ascii "k") (.Int 5)) = none ∧
    storeStep 0 ⟨[], [], [3]⟩ (.SetEx (ascii "k") (.Int 5) 7) = none :=
  (store_set_nonstring_panics_only_with_replicas 0 ⟨[], [], [3]⟩ (ascii "k")
    (.Int 5) 7 rfl).1 (by decide)

/-! ## Store map lemmas -/

theorem removeStore_cons (k : Bytes) (v : StoreValue) (rest : StoreData) (key : Bytes) :
    removeStore ((k, v) :: rest) key =
      if k = key then removeStore rest key else (k, v) :: removeStore rest key := by
  simp only [removeStore, List.filter_cons]
  by_cases h : k = key
  · simp [h]
  · simp [h]

theorem lookup_removeStore_self (d : StoreData) (key : Bytes) :
    lookupStore (removeStore d key) key = none := by
  induction d with
  | nil => rfl
  | cons p rest ih =>
    obtain ⟨k, v⟩ := p
    rw [removeStore_cons]
    by_cases h : k = key
    · rw [if_pos h]
      exact ih
    · rw [if_neg h]
      simp only [lookupStore, h, if_false]
      exact ih

theorem lookup_removeStore_ne (d : StoreData) (key k2 : Bytes) (h : k2 ≠ key) :
    lookupStore (removeStore d key) k2 = lookupStore d k2 := by
  induction d with
  | nil => rfl
  | cons p rest ih =>
    obtain ⟨k, v⟩ := p
    rw [removeStore_cons]
    by_cases hk : k = key
    · rw [if_pos hk]
      subst hk
      rw [ih]
      have hne : k ≠ k2 := fun e => h (e ▸ rfl)
      simp [lookupStore, hne]
    · rw [if_neg hk]
      simp only [lookupStore]
      by_cases hk2 : k = k2
      · simp [hk2]
      · simp [hk2, ih]

/-- C4: processing `Get{id, key}` when `key` is bound to an
`Expirable` entry whose deadline is in the past sends `Get(None)` to
the requesting client's sink, removes exactly that key from the map
(every other key's binding is unchanged), and performs no replica
sends whatsoever (lazy expiry is not replicated). -/
theorem get_expired_removes_and_replies_absent
    (now : Nat) (st : StoreState) (id tok : Nat) (key : Bytes)
    (v : RedisType) (dl : Nat)
    (hc : st.clients.get? id = some tok)
    (hl : lookupStore st.data key = some (.Expirable v dl))
    (hp : dl < now) :
    storeStep now st (.Get id key) =
      some ({ st with data := removeStore st.data key },
            [.ClientSend tok (.Get none)]) ∧
    lookupStore (removeStore st.data key) key = none ∧
    (∀ k2, k2 ≠ key → lookupStore (removeStore st.data key) k2 = lookupStore st.data k2) ∧
    (∀ t, replicaBytesTo t [Effect.ClientSend tok (.Get none)] = []) := by
  have hread : storeRead now st.data key = (none, removeStore st.data key) := by
    simp only [storeRead, hl]
    rw [if_neg (by omega)]
  refine ⟨?_, lookup_removeStore_self _ _,
    fun k2 h2 => lookup_removeStore_ne _ _ _ h2, fun t => rfl⟩
  simp only [storeStep, hc, hread]

/-- C4, witness: a store holding `k ↦ Expirable("v", deadline 5)` read
at time 10 by client id 0 (whose sink token is 9). -/
theorem get_expired_removes_witness :
    storeStep 10 ⟨[(ascii "k", .Expirable (.String (ascii "v")) 5)], [9], []⟩
        (.Get 0 (ascii "k")) =
      some (⟨[], [9], []⟩, [.ClientSend 9 (.Get none)]) := by
  have h := get_expired_removes_and_replies_absent 10
    ⟨[(ascii "k", .Expirable (.String (ascii "v")) 5)], [9], []⟩ 0 9 (ascii "k")
    (.String (ascii "v")) 5 rfl rfl (by omega)
  exact h.1.trans rfl

/-- C6: for `KEYS` with exactly one argument: argument `*` replies
with the array of all current keys (the Store's `AllKeys` snapshot);
any other argument containing the wildcard byte `*` is answered with
`-ERR general pattern matching unsupported`; every remaining argument
is treated as an exact key literal and answered with the one-element
array `[arg]` when the key is present and unexpired, and with the
empty array otherwise (the literal lookup is a `Get` round trip, so it
lazily expires the key). -/
theorem handle_keys_star_literal_or_error (now : Nat) (d : StoreData) (arg : Bytes) :
    (arg = ascii "*" →
       clientKeysReply now d arg = (to_vec (.Array (d.map (fun p => .String p.1))), d)) ∧
    (arg ≠ ascii "*" → arg.contains 42 = true →
       clientKeysReply now d arg =
         (errReply "general pattern matching unsupported", d)) ∧
    (arg.contains 42 = false →
       ((storeRead now d arg).1.isSome = true →
          clientKeysReply now d arg =
            (to_vec (.Array [.String arg]), (storeRead now d arg).2)) ∧
       ((storeRead now d arg).1 = none →
          clientKeysReply now d arg =
            (to_vec (.Array []), (storeRead now d arg).2))) := by
  refine ⟨?_, ?_, ?_⟩
  · intro h
    subst h
    rfl
  · intro h1 h2
    have h2m : 42 ∈ arg := by simpa using h2
    simp [clientKeysReply, h1, h2m]
  · intro h3
    have h3m : ¬ (42 ∈ arg) := by simpa using h3
    have h1 : arg ≠ ascii "*" := by
      intro e
      subst e
      exact h3m (by decide)
    constructor
    · intro hsome
      cases hr : (storeRead now d arg).1 with
      | some v => simp [clientKeysReply, h1, h3m, hr]
      | none => rw [hr] at hsome; cases hsome
    · intro hnone
      simp [clientKeysReply, h1, h3m, hnone]

/-- C6, witness: with the store `{a ↦ "1"}`, `KEYS a` answers the
one-element array `["a"]` (third conjunct, present branch). -/
theorem handle_keys_literal_witness :
    clientKeysReply 0 [(ascii "a", .Permanent (.String (ascii "1")))] (ascii "a") =
      (to_vec (.Array [.String (ascii "a")]),
       (storeRead 0 [(ascii "a", .Permanent (.String (ascii "1")))] (ascii "a")).2) :=
  ((handle_keys_star_literal_or_error 0
      [(ascii "a", .Permanent (.String (ascii "1")))] (ascii "a")).2.2
    (by decide)).1 rfl

/-! ## INFO lemmas -/

theorem uniqueFirstAux_subset :
    ∀ (l seen : List Bytes) (x : Bytes), x ∈ uniqueFirstAux l seen → x ∈ l := by
  intro l
  induction l with
  | nil => intro seen x h; cases h
  | cons a t ih =>
    intro seen x h
    simp only [uniqueFirstAux] at h
    by_cases ha : a ∈ seen
    · rw [if_pos ha] at h
      exact List.mem_cons_of_mem a (ih seen x h)
    · rw [if_neg ha] at h
      rcases List.mem_cons.mp h with h1 | h2
      · exact h1 ▸ List.mem_cons_self a t
      · exact List.mem_cons_of_mem a (ih _ x h2)

theorem uniqueFirst_ne_nil (l : List Bytes) (h : l ≠ []) : uniqueFirst l ≠ [] := by
  cases l with
  | nil => exact absurd rfl h
  | cons a t => simp [uniqueFirst, uniqueFirstAux]

theorem info_on_unknown (cfg : ConfigInfo) (sec : Bytes)
    (h : sec ≠ ascii "replication") : info_on cfg sec = [] := by
  simp [info_on, h]

/-- C7, counterexample: `INFO foo` (one unknown section) is answered
with the bulk string `$2\r\n\r\n\r\n` — a bulk string whose payload is
the two CRLF bytes — and not with the empty bulk string `$0\r\n\r\n`
the claim requires: `answer.len() > 0` counts the per-section `Vec`
entries (one per requested section, even if rendered empty), so the
`else` branch producing the empty string is unreachable. -/
theorem handle_info_unknown_not_empty_bulk :
    handle_info ⟨false, [], 0⟩ [ascii "foo"] = ascii "$2\r\n\r\n\r\n" ∧
    ascii "$2\r\n\r\n\r\n" ≠ ascii "$0\r\n\r\n" := ⟨rfl, by decide⟩

/-- C7, amended: for `INFO` with one or more section arguments, each
lowercased deduplicated section is rendered (`replication` renders its
block, unknown sections render the empty string and so contribute
nothing to the concatenation), the renders are concatenated and a
final CRLF appended, and the whole is sent as one bulk string; when
every requested section is unknown the reply is the bulk string whose
payload is the two CRLF bytes — never the empty bulk string, since the
render list of a nonempty request is nonempty. -/
theorem handle_info_concat_and_crlf_tail (cfg : ConfigInfo) (args : List Bytes)
    (h : args ≠ []) :
    handle_info cfg args =
      to_vec (.String
        (((uniqueFirst (args.map lowerBytes)).map (info_on cfg)).flatten ++ crlf)) ∧
    (∀ sec : Bytes, sec ≠ ascii "replication" → info_on cfg sec = []) ∧
    ((∀ a ∈ args, lowerBytes a ≠ ascii "replication") →
       handle_info cfg args = to_vec (.String crlf)) := by
  have hne : args.map lowerBytes ≠ [] := by
    cases args with
    | nil => exact absurd rfl h
    | cons a t => simp
  have hu := uniqueFirst_ne_nil _ hne
  have hlen : 0 < ((uniqueFirst (args.map lowerBytes)).map (info_on cfg)).length := by
    cases hcase : uniqueFirst (args.map lowerBytes) with
    | nil => exact absurd hcase hu
    | cons a t => simp
  have hmain : handle_info cfg args =
      to_vec (.String
        (((uniqueFirst (args.map lowerBytes)).map (info_on cfg)).flatten ++ crlf)) := by
    simp only [handle_info, isEmpty_false_of_ne_nil h, Bool.false_eq_true, if_false]
    rw [if_pos hlen]
  refine ⟨hmain, fun sec hs => info_on_unknown cfg sec hs, ?_⟩
  intro hall
  rw [hmain]
  have hflat : ((uniqueFirst (args.map lowerBytes)).map (info_on cfg)).flatten = [] := by
    rw [List.flatten_eq_nil_iff]
    intro x hx
    rcases List.mem_map.mp hx with ⟨sec, hsec, rfl⟩
    have hsec2 := uniqueFirstAux_subset _ _ _ hsec
    rcases List.mem_map.mp hsec2 with ⟨a, ha, rfl⟩
    exact info_on_unknown cfg _ (hall a ha)
  rw [hflat]
  simp

/-- C7, witness: all-unknown request `INFO bar` answers the bulk
string containing just CRLF. -/
theorem handle_info_concat_witness :
    handle_info ⟨false, [], 0⟩ [ascii "bar"] = to_vec (.String crlf) :=
  (handle_info_concat_and_crlf_tail ⟨false, [], 0⟩ [ascii "bar"] (by decide)).2.2
    (by decide)

/-! ## Replication fan-out lemmas -/

theorem replicaBytesTo_append (tok : Nat) (a b : List Effect) :
    replicaBytesTo tok (a ++ b) = replicaBytesTo tok a ++ replicaBytesTo tok b :=
  List.filterMap_append a b _

theorem replicaBytesTo_not_mem (tok : Nat) (l : List Nat) (payload : RedisType)
    (h : tok ∉ l) : replicaBytesTo tok (replicate l payload) = [] := by
  induction l with
  | nil => rfl
  | cons a t ih =>
    have ha : ¬ (a = tok) := fun e => h (e ▸ List.mem_cons_self a t)
    have ht : tok ∉ t := fun hh => h (List.mem_cons_of_mem a hh)
    simp only [replicate, List.map_cons, replicaBytesTo, List.filterMap_cons] at *
    simp only [ha, if_false]
    exact ih ht

theorem replicaBytesTo_replicate_mem (tok : Nat) (l : List Nat) (payload : RedisType)
    (hd : l.Nodup) (hm : tok ∈ l) :
    replicaBytesTo tok (replicate l payload) = [to_vec payload] := by
  induction l with
  | nil => cases hm
  | cons a t ih =>
    rcases List.mem_cons.mp hm with h1 | h2
    · subst h1
      have hnot : tok ∉ t := (List.nodup_cons.mp hd).1
      have hrest := replicaBytesTo_not_mem tok t payload hnot
      simp only [replicate, List.map_cons, replicaBytesTo, List.filterMap_cons] at hrest ⊢
      simp [hrest]
    · have ha : ¬ (a = tok) := by
        intro e
        subst e
        exact (List.nodup_cons.mp hd).1 h2
      have hrest := ih (List.nodup_cons.mp hd).2 h2
      simp only [replicate, List.map_cons, replicaBytesTo, List.filterMap_cons] at hrest ⊢
      simp only [ha, if_false]
      exact hrest

theorem storeStep_write_effects (now : Nat) (st : StoreState) (c : StoreCommand)
    (st1 : StoreState) (effs : List Effect) (tok : Nat)
    (h : storeStep now st c = some (st1, effs))
    (hni : isInitReplica c = false)
    (hm : tok ∈ st.replicas) (hd : st.replicas.Nodup) :
    st1.replicas = st.replicas ∧
    replicaBytesTo tok effs = if isWrite c then [writePayloadBytes c] else [] := by
  have hne : st.replicas ≠ [] := by
    intro e
    rw [e] at hm
    cases hm
  have he := isEmpty_false_of_ne_nil hne
  cases c with
  | InitClient t2 =>
    simp only [storeStep, Option.some.injEq, Prod.mk.injEq] at h
    obtain ⟨h1, h2⟩ := h
    subst h1
    subst h2
    exact ⟨rfl, rfl⟩
  | InitReplica t2 => simp [isInitReplica] at hni
  | Set key value =>
    simp only [storeStep, he, Bool.false_eq_true, if_false] at h
    cases value with
    | String s =>
      simp only [Option.some.injEq, Prod.mk.injEq] at h
      obtain ⟨h1, h2⟩ := h
      subst h1
      subst h2
      refine ⟨rfl, ?_⟩
      simp only [isWrite, if_true, writePayloadBytes]
      exact replicaBytesTo_replicate_mem tok st.replicas _ hd hm
    | Int n => exact Option.noConfusion h
    | Timestamp m => exact Option.noConfusion h
    | Array a => exact Option.noConfusion h
  | SetEx key value dl =>
    simp only [storeStep, he, Bool.false_eq_true, if_false] at h
    cases value with
    | String s =>
      simp only [Option.some.injEq, Prod.mk.injEq] at h
      obtain ⟨h1, h2⟩ := h
      subst h1
      subst h2
      refine ⟨rfl, ?_⟩
      simp only [isWrite, if_true, writePayloadBytes]
      exact replicaBytesTo_replicate_mem tok st.replicas _ hd hm
    | Int n => exact Option.noConfusion h
    | Timestamp m => exact Option.noConfusion h
    | Array a => exact Option.noConfusion h
  | Get id key =>
    simp only [storeStep] at h
    cases hg : st.clients.get? id with
    | none => rw [hg] at h; exact Option.noConfusion h
    | some t2 =>
      rw [hg] at h
      simp only [Option.some.injEq, Prod.mk.injEq] at h
      obtain ⟨h1, h2⟩ := h
      subst h1
      subst h2
      exact ⟨rfl, rfl⟩
  | AllKeys id =>
    simp only [storeStep] at h
    cases hg : st.clients.get? id with
    | none => rw [hg] at h; exact Option.noConfusion h
    | some t2 =>
      rw [hg] at h
      simp only [Option.some.injEq, Prod.mk.injEq] at h
      obtain ⟨h1, h2⟩ := h
      subst h1
      subst h2
      exact ⟨rfl, rfl⟩
  | ReplicaCount id =>
    simp only [storeStep] at h
    cases hg : st.clients.get? id with
    | none => rw [hg] at h; exact Option.noConfusion h
    | some t2 =>
      rw [hg] at h
      simp only [Option.some.injEq, Prod.mk.injEq] at h
      obtain ⟨h1, h2⟩ := h
      subst h1
      subst h2
      exact ⟨rfl, rfl⟩

theorem storeRun_replication_order (now : Nat) (cmds : List StoreCommand) :
    ∀ (st st1 : StoreState) (effs : List Effect) (tok : Nat),
      storeRun now st cmds = some (st1, effs) →
      (∀ c ∈ cmds, isInitReplica c = false) →
      tok ∈ st.replicas → st.replicas.Nodup →
      replicaBytesTo tok effs = (cmds.filter isWrite).map writePayloadBytes := by
  induction cmds with
  | nil =>
    intro st st1 effs tok h _ _ _
    simp only [storeRun, Option.some.injEq, Prod.mk.injEq] at h
    obtain ⟨_, h2⟩ := h
    subst h2
    rfl
  | cons c cs ih =>
    intro st st1 effs tok h hni hm hd
    simp only [storeRun] at h
    split at h
    · cases h
    next st2 e1 heq1 =>
      split at h
      · cases h
      next st3 e2 heq2 =>
        simp only [Option.some.injEq, Prod.mk.injEq] at h
        obtain ⟨h1, h2⟩ := h
        subst h1
        subst h2
        have hstep := storeStep_write_effects now st c st2 e1 tok heq1
          (hni c (List.mem_cons_self c cs)) hm hd
        have hm2 : tok ∈ st2.replicas := by rw [hstep.1]; exact hm
        have hd2 : st2.replicas.Nodup := by rw [hstep.1]; exact hd
        have hrec := ih st2 st3 e2 tok heq2
          (fun x hx => hni x (List.mem_cons_of_mem c hx)) hm2 hd2
        rw [replicaBytesTo_append, hstep.2, hrec]
        by_cases hw : isWrite c = true
        · simp [List.filter_cons, hw]
        · simp [List.filter_cons, hw]

/-- C1: while at least one replica byte sink is registered, processing
`Set{key, value}` pushes, within that same handler (before the next
command is dequeued), one identical byte buffer to every registered
replica sink — the RESP encoding of
`Array[String("SET"), String(key), String(value)]` (`replicate`
encodes the payload once and maps it over the whole sink registry);
for `SetEx` the buffer encodes
`Array[String("SET"), String(key), String(value), String("PXAT"),
Timestamp(deadline_ms)]`, the deadline rendered as `:<ms>\r\n`.
Consequently (fourth conjunct), over any command queue processed while
the sink registry is fixed, every replica sink receives exactly the
write payloads, in queue order. -/
theorem store_write_replication_fanout_and_order :
    (∀ (now : Nat) (st : StoreState) (key s : Bytes), st.replicas ≠ [] →
       storeStep now st (.Set key (.String s)) =
         some ({ st with data := writeStore st.data key (.Permanent (.String s)) },
               replicate st.replicas (setPayload key s))) ∧
    (∀ (now : Nat) (st : StoreState) (key s : Bytes) (dl : Nat), st.replicas ≠ [] →
       storeStep now st (.SetEx key (.String s) dl) =
         some ({ st with data := writeStore st.data key (.Expirable (.String s) dl) },
               replicate st.replicas (setExPayload key s dl))) ∧
    (∀ dl : Nat, to_vec (.Timestamp dl) = [58] ++ natDigits dl ++ crlf) ∧
    (∀ (now : Nat) (st st1 : StoreState) (cmds : List StoreCommand)
       (effs : List Effect) (tok : Nat),
       storeRun now st cmds = some (st1, effs) →
       (∀ c ∈ cmds, isInitReplica c = false) →
       tok ∈ st.replicas → st.replicas.Nodup →
       replicaBytesTo tok effs = (cmds.filter isWrite).map writePayloadBytes) := by
  refine ⟨?_, ?_, fun dl => by simp [to_vec], ?_⟩
  · intro now st key s hne
    have he := isEmpty_false_of_ne_nil hne
    simp [storeStep, he]
  · intro now st key s dl hne
    have he := isEmpty_false_of_ne_nil hne
    simp [storeStep, he]
  · intro now st st1 cmds effs tok h hni hm hd
    exact storeRun_replication_order now cmds st st1 effs tok h hni hm hd

/-- C1, witness: one replica sink (token 7) and the queue
`[Set a 1, SetEx b 2 (deadline 99)]`: the sink's byte stream is
exactly the two write payloads in order. -/
theorem store_write_replication_witness :
    replicaBytesTo 7
        [Effect.ReplicaSend 7 (to_vec (setPayload (ascii "a") (ascii "1"))),
         Effect.ReplicaSend 7 (to_vec (setExPayload (ascii "b") (ascii "2") 99))] =
      (([StoreCommand.Set (ascii "a") (.String (ascii "1")),
         StoreCommand.SetEx (ascii "b") (.String (ascii "2")) 99].filter
          isWrite).map writePayloadBytes) :=
  store_write_replication_fanout_and_order.2.2.2 0 ⟨[], [], [7]⟩
    ⟨[(ascii "a", .Permanent (.String (ascii "1"))),
      (ascii "b", .Expirable (.String (ascii "2")) 99)], [], [7]⟩
    [StoreCommand.Set (ascii "a") (.String (ascii "1")),
     StoreCommand.SetEx (ascii "b") (.String (ascii "2")) 99]
    [Effect.ReplicaSend 7 (to_vec (setPayload (ascii "a") (ascii "1"))),
     Effect.ReplicaSend 7 (to_vec (setExPayload (ascii "b") (ascii "2") 99))]
    7 rfl (by decide) (by decide) (by decide)

/-! ## Client id lemmas -/

theorem idResponses_append (a b : List Effect) :
    idResponses (a ++ b) = idResponses a ++ idResponses b :=
  List.filterMap_append a b _

theorem idResponses_replicate (l : List Nat) (p : RedisType) :
    idResponses (replicate l p) = [] := by
  induction l with
  | nil => rfl
  | cons a t ih =>
    simp only [replicate, List.map_cons, idResponses, List.filterMap_cons] at ih ⊢
    exact ih

theorem storeStep_ids (now : Nat) (st : StoreState) (c : StoreCommand)
    (st1 : StoreState) (effs : List Effect)
    (h : storeStep now st c = some (st1, effs)) :
    idResponses effs =
      (match c with
       | .InitClient tok2 => [(tok2, st.clients.length)]
       | _ => []) ∧
    st1.clients =
      (match c with
       | .InitClient tok2 => st.clients ++ [tok2]
       | _ => st.clients) := by
  cases c with
  | InitClient tok2 =>
    simp only [storeStep, Option.some.injEq, Prod.mk.injEq] at h
    obtain ⟨h1, h2⟩ := h
    subst h1
    subst h2
    exact ⟨rfl, rfl⟩
  | InitReplica tok2 =>
    simp only [storeStep, Option.some.injEq, Prod.mk.injEq] at h
    obtain ⟨h1, h2⟩ := h
    subst h1
    subst h2
    exact ⟨rfl, rfl⟩
  | Set key value =>
    simp only [storeStep] at h
    split at h
    · simp only [Option.some.injEq, Prod.mk.injEq] at h
      obtain ⟨h1, h2⟩ := h
      subst h1
      subst h2
      exact ⟨rfl, rfl⟩
    · cases value with
      | String s =>
        simp only [Option.some.injEq, Prod.mk.injEq] at h
        obtain ⟨h1, h2⟩ := h
        subst h1
        subst h2
        exact ⟨idResponses_replicate _ _, rfl⟩
      | Int n => exact Option.noConfusion h
      | Timestamp m => exact Option.noConfusion h
      | Array a => exact Option.noConfusion h
  | SetEx key value dl =>
    simp only [storeStep] at h
    split at h
    · simp only [Option.some.injEq, Prod.mk.injEq] at h
      obtain ⟨h1, h2⟩ := h
      subst h1
      subst h2
      exact ⟨rfl, rfl⟩
    · cases value with
      | String s =>
        simp only [Option.some.injEq, Prod.mk.injEq] at h
        obtain ⟨h1, h2⟩ := h
        subst h1
        subst h2
        exact ⟨idResponses_replicate _ _, rfl⟩
      | Int n => exact Option.noConfusion h
      | Timestamp m => exact Option.noConfusion h
      | Array a => exact Option.noConfusion h
  | Get id key =>
    simp only [storeStep] at h
    cases hg : st.clients.get? id with
    | none => rw [hg] at h; exact Option.noConfusion h
    | some t2 =>
      rw [hg] at h
      simp only [Option.some.injEq, Prod.mk.injEq] at h
      obtain ⟨h1, h2⟩ := h
      subst h1
      subst h2
      exact ⟨rfl, rfl⟩
  | AllKeys id =>
    simp only [storeStep] at h
    cases hg : st.clients.get? id with
    | none => rw [hg] at h; exact Option.noConfusion h
    | some t2 =>
      rw [hg] at h
      simp only [Option.some.injEq, Prod.mk.injEq] at h
      obtain ⟨h1, h2⟩ := h
      subst h1
      subst h2
      exact ⟨rfl, rfl⟩
  | ReplicaCount id =>
    simp only [storeStep] at h
    cases hg : st.clients.get? id with
    | none => rw [hg] at h; exact Option.noConfusion h
    | some t2 =>
      rw [hg] at h
      simp only [Option.some.injEq, Prod.mk.injEq] at h
      obtain ⟨h1, h2⟩ := h
      subst h1
      subst h2
      exact ⟨rfl, rfl⟩

theorem storeRun_ids (now : Nat) (cmds : List StoreCommand) :
    ∀ (st st1 : StoreState) (effs : List Effect),
      storeRun now st cmds = some (st1, effs) →
      idResponses effs = assignIds st.clients.length (initTokens cmds) ∧
      st1.clients = st.clients ++ initTokens cmds := by
  induction cmds with
  | nil =>
    intro st st1 effs h
    simp only [storeRun, Option.some.injEq, Prod.mk.injEq] at h
    obtain ⟨h1, h2⟩ := h
    subst h1
    subst h2
    simp [initTokens, assignIds, idResponses]
  | cons c cs ih =>
    intro st st1 effs h
    simp only [storeRun] at h
    split at h
    · cases h
    next st2 e1 heq1 =>
      split at h
      · cases h
      next st3 e2 heq2 =>
        simp only [Option.some.injEq, Prod.mk.injEq] at h
        obtain ⟨h1, h2⟩ := h
        subst h1
        subst h2
        have hids := storeStep_ids now st c st2 e1 heq1
        have hrec := ih st2 st3 e2 heq2
        rw [idResponses_append, hids.1, hrec.1, hids.2, hrec.2, hids.2]
        cases c with
        | InitClient tok2 =>
          simp [initTokens, List.filterMap_cons, assignIds, List.length_append]
        | InitReplica tok2 => simp [initTokens, List.filterMap_cons]
        | Set key value => simp [initTokens, List.filterMap_cons]
        | SetEx key value dl => simp [initTokens, List.filterMap_cons]
        | Get id key => simp [initTokens, List.filterMap_cons]
        | AllKeys id => simp [initTokens, List.filterMap_cons]
        | ReplicaCount id => simp [initTokens, List.filterMap_cons]

theorem assignIds_get_mem :
    ∀ (l : List Nat) (i t s : Nat), l.get? i = some t → (t, s + i) ∈ assignIds s l := by
  intro l
  induction l with
  | nil =>
    intro i t s h
    simp [List.get?] at h
  | cons a t2 ih =>
    intro i tt s h
    cases i with
    | zero =>
      simp only [List.get?, Option.some.injEq] at h
      subst h
      simp [assignIds]
    | succ j =>
      simp only [List.get?] at h
      have hmem := ih j tt (s + 1) h
      have harith : s + (j + 1) = (s + 1) + j := by omega
      rw [harith]
      exact List.mem_cons_of_mem _ hmem

theorem storeRun_append_decompose (now : Nat) (l1 l2 : List StoreCommand) :
    ∀ (st st2 : StoreState) (effs : List Effect),
      storeRun now st (l1 ++ l2) = some (st2, effs) →
      ∃ (st1 : StoreState) (effs1 effs2 : List Effect),
        storeRun now st l1 = some (st1, effs1) ∧
        storeRun now st1 l2 = some (st2, effs2) ∧ effs = effs1 ++ effs2 := by
  induction l1 with
  | nil =>
    intro st st2 effs h
    exact ⟨st, [], effs, rfl, h, (List.nil_append effs).symm⟩
  | cons c cs ih =>
    intro st st2 effs h
    simp only [List.cons_append, storeRun] at h
    split at h
    · cases h
    next stc ec heqc =>
      split at h
      · cases h
      next st3 e3 heq3 =>
        simp only [Option.some.injEq, Prod.mk.injEq] at h
        obtain ⟨h1, h2⟩ := h
        subst h1
        subst h2
        obtain ⟨st1, f1, f2, hr1, hr2, hf⟩ := ih stc st3 e3 heq3
        refine ⟨st1, ec ++ f1, f2, ?_, hr2, ?_⟩
        · simp [storeRun, heqc, hr1]
        · rw [hf, List.append_assoc]

theorem storeStep_get_shape (now : Nat) (st : StoreState) (id : Nat) (key : Bytes)
    (stg : StoreState) (eg : List Effect)
    (h : storeStep now st (.Get id key) = some (stg, eg)) :
    ∃ tok, st.clients.get? id = some tok ∧
      eg = [.ClientSend tok (.Get (storeRead now st.data key).1)] := by
  simp only [storeStep] at h
  cases hg : st.clients.get? id with
  | none => rw [hg] at h; exact Option.noConfusion h
  | some tok =>
    rw [hg] at h
    simp only [Option.some.injEq, Prod.mk.injEq] at h
    exact ⟨tok, rfl, h.2.symm⟩

/-- C9: starting from a fresh Store (no registered clients), client
ids are dense and assigned monotonically at registration: the
sequence of `ClientId` responses pairs each `InitClient` sink token
with consecutive ids `0, 1, 2, …` in registration order (so the n-th
`InitClient` receives id n-1, and no id is ever reused), and the
client registry equals the registration order (second conjunct of the
run lemma).  Moreover, every processed `Get{id, key}` sends its reply
to exactly one sink: the one whose `InitClient` was assigned that id
(`(tok, id)` appears among the earlier `ClientId` responses). -/
theorem client_ids_dense_and_get_reply_targeted :
    (∀ (now : Nat) (d0 : StoreData) (r0 : List Nat) (cmds : List StoreCommand)
       (st1 : StoreState) (effs : List Effect),
       storeRun now ⟨d0, [], r0⟩ cmds = some (st1, effs) →
       idResponses effs = assignIds 0 (initTokens cmds) ∧
       st1.clients = initTokens cmds) ∧
    (∀ (now : Nat) (d0 : StoreData) (r0 : List Nat)
       (pre rest : List StoreCommand) (id : Nat) (key : Bytes)
       (st1 : StoreState) (effs : List Effect),
       storeRun now ⟨d0, [], r0⟩ (pre ++ .Get id key :: rest) = some (st1, effs) →
       ∃ (stp : StoreState) (effp : List Effect) (tok : Nat)
         (res : Option RedisType) (effr : List Effect),
         storeRun now ⟨d0, [], r0⟩ pre = some (stp, effp) ∧
         stp.clients.get? id = some tok ∧
         (tok, id) ∈ idResponses effp ∧
         effs = effp ++ .ClientSend tok (.Get res) :: effr) := by
  constructor
  · intro now d0 r0 cmds st1 effs h
    have := storeRun_ids now cmds ⟨d0, [], r0⟩ st1 effs h
    simpa using this
  · intro now d0 r0 pre rest id key st1 effs h
    obtain ⟨stp, effp, effs2, hr1, hr2, hf⟩ :=
      storeRun_append_decompose now pre (.Get id key :: rest) ⟨d0, [], r0⟩ st1 effs h
    simp only [storeRun] at hr2
    split at hr2
    · cases hr2
    next stg eg heqg =>
      split at hr2
      · cases hr2
      next st3 e3 heq3 =>
        simp only [Option.some.injEq, Prod.mk.injEq] at hr2
        obtain ⟨h1, h2⟩ := hr2
        obtain ⟨tok, hget, hegeq⟩ := storeStep_get_shape now stp id key stg eg heqg
        have hids := storeRun_ids now pre ⟨d0, [], r0⟩ stp effp hr1
        have hcl : stp.clients = initTokens pre := by simpa using hids.2
        have hmem : (tok, id) ∈ idResponses effp := by
          rw [hids.1]
          have := assignIds_get_mem (initTokens pre) id tok 0
            (by rw [← hcl]; exact hget)
          simpa using this
        refine ⟨stp, effp, tok, (storeRead now stp.data key).1, e3, hr1, hget, hmem, ?_⟩
        rw [hf, ← h2, hegeq]
        simp

/-- C9, witness: two registrations (sink tokens 5 and 8) receive ids 0
and 1 in order. -/
theorem client_ids_dense_witness :
    idResponses [Effect.ClientSend 5 (.ClientId 0), Effect.ClientSend 8 (.ClientId 1)] =
      assignIds 0 (initTokens [StoreCommand.InitClient 5, StoreCommand.InitClient 8]) ∧
    (⟨[], [5, 8], []⟩ : StoreState).clients =
      initTokens [StoreCommand.InitClient 5, StoreCommand.InitClient 8] :=
  client_ids_dense_and_get_reply_targeted.1 0 [] []
    [StoreCommand.InitClient 5, StoreCommand.InitClient 8] ⟨[], [5, 8], []⟩
    [Effect.ClientSend 5 (.ClientId 0), Effect.ClientSend 8 (.ClientId 1)] rfl
